import Mathlib

/-!
Verification of the markup scanner and decoration engine of the Tessellum
note-taking application.

The definitions below are shallow embeddings of the TypeScript sources:
* `findLatexExpressions` (shared-latex-utils.ts) — the single-pass math scanner;
* the divider matcher (`line.text === '---'`, divider-plugin.ts);
* the wikilink finders (`findWikiLinks` of wikiLink-plugin.ts and the
  `MatchDecorator` regex of wikiLinkPlugin.ts);
* the cursor-suppression predicates of math-plugin.ts, divider-plugin.ts and
  markdown-preview-plugin.ts;
* the plugin update policies of math-plugin.ts and wikiLinkPlugin.ts;
* the wikilink existence check of wikiLink-plugin.ts.

Documents are lists of characters indexed from 0, matching JavaScript string
indexing for the ASCII inputs considered throughout.
-/

/-- Character of `t` at index `i` (JavaScript `text[i]`, `none` when out of bounds). -/
def charAt? (t : List Char) (i : Nat) : Option Char :=
  t.get? i

/-- JavaScript `text.slice(a, b)`: the characters of `t` at indices `[a, b)`. -/
def textSlice (t : List Char) (a b : Nat) : List Char :=
  (t.drop a).take (b - a)

/-- A math span found by `findLatexExpressions` (interface `LatexMatch` in
shared-latex-utils.ts; `end` is a Lean keyword, rendered `endPos`). -/
structure LatexMatch where
  start : Nat
  endPos : Nat
  formula : List Char
  isBlock : Bool
deriving DecidableEq, Repr

/-- Outcome of the inner `$$`-closing search of `findLatexExpressions`. -/
inductive BlockRes where
  | closed
  | failed
deriving DecidableEq, Repr

/-- Outcome of the inner inline-`$`-closing search of `findLatexExpressions`. -/
inductive InlineRes where
  | closed
  | newlineAbort
  | exhausted
deriving DecidableEq, Repr

/-- The inner loop of the block-math branch of `findLatexExpressions`
(shared-latex-utils.ts lines 20–33).  `p` is the absolute index of the head of
the suffix `s`.  The source loop runs while `i < text.length - 1` (so it stops
with at most one character left), skips two characters on a backslash, and
closes on `$$`, returning `i + 2`.  On failure the exit index and remaining
suffix are returned so the outer scan can resume exactly where the source does. -/
def blockScanL : Nat → List Char → BlockRes × Nat × List Char
  | p, c :: c' :: r =>
    if c = '\\' then blockScanL (p + 2) r
    else if c = '$' ∧ c' = '$' then (.closed, p + 2, r)
    else blockScanL (p + 1) (c' :: r)
  | p, s => (.failed, p, s)

/-- The inner loop of the inline-math branch of `findLatexExpressions`
(shared-latex-utils.ts lines 43–61).  A newline aborts the attempt (the source
then resets `i` to one past the opening `$`, which the outer scan performs),
a backslash skips two characters, a `$` closes the span at `i + 1`. -/
def inlineScanL : Nat → List Char → InlineRes × Nat × List Char
  | p, [] => (.exhausted, p, [])
  | p, c :: r =>
    if c = '\n' then (.newlineAbort, p, c :: r)
    else if c = '\\' then
      match r with
      | [] => (.exhausted, p + 2, [])
      | _ :: r' => inlineScanL (p + 2) r'
    else if c = '$' then (.closed, p + 1, r)
    else inlineScanL (p + 1) r

/-- One iteration of the outer loop of `findLatexExpressions`
(shared-latex-utils.ts lines 13–66), at absolute index `pos` with the document
suffix `c :: rest`.  Returns the span emitted by this iteration (if any), the
next outer index, and the suffix at that index. -/
def scanStep (t : List Char) (pos : Nat) (c : Char) (rest : List Char) :
    Option LatexMatch × Nat × List Char :=
  if c = '$' ∧ rest.head? = some '$' then
    match blockScanL (pos + 2) rest.tail with
    | (.closed, e, rest') =>
      (some { start := pos, endPos := e, formula := textSlice t (pos + 2) (e - 2),
              isBlock := true }, e, rest')
    | (.failed, x, rest') => (none, x, rest')
  else if c = '$' then
    match inlineScanL (pos + 1) rest with
    | (.closed, e, rest') =>
      (some { start := pos, endPos := e, formula := textSlice t (pos + 1) (e - 1),
              isBlock := false }, e, rest')
    | (.newlineAbort, _, _) => (none, pos + 1, rest)
    | (.exhausted, x, rest') => (none, x, rest')
  else (none, pos + 1, rest)

/-- The outer loop of `findLatexExpressions`.  The source `while (i <
text.length)` loop terminates because the index strictly increases each
iteration (theorem `scanStep_spec`); the fuel argument makes that
recursion structural, and `text.length + 1` fuel is never exhausted
(theorem `scanF_stable`). -/
def scanF (t : List Char) : Nat → Nat → List Char → List LatexMatch
  | 0, _, _ => []
  | _ + 1, _, [] => []
  | fuel + 1, pos, c :: rest =>
    match scanStep t pos c rest with
    | (some m, pos', s') => m :: scanF t fuel pos' s'
    | (none, pos', s') => scanF t fuel pos' s'

/-- `findLatexExpressions` of shared-latex-utils.ts: scan the whole document
from index 0. -/
def findLatexExpressions (text : String) : List LatexMatch :=
  scanF text.data (text.data.length + 1) 0 text.data

/-- Split a document into its lines (the text between newline characters,
excluding the terminators), as CodeMirror's `state.doc` exposes them.  `acc`
holds the current line reversed. -/
def splitLinesAux : List Char → List Char → List (List Char)
  | acc, [] => [acc.reverse]
  | acc, c :: r =>
    if c = '\n' then acc.reverse :: splitLinesAux [] r
    else splitLinesAux (c :: acc) r

/-- All lines of a document. -/
def splitLines (t : List Char) : List (List Char) :=
  splitLinesAux [] t

/-- Pair each line with its starting offset in the document (CodeMirror's
`line.from`); each line terminator occupies one position. -/
def withOffsets : Nat → List (List Char) → List (Nat × List Char)
  | _, [] => []
  | off, l :: ls => (off, l) :: withOffsets (off + l.length + 1) ls

/-- The divider matcher of divider-plugin.ts (`line.text === '---'`, line 74;
equivalently the `/^---$/gm` regex of the MatchDecorator variant): a line
yields a divider span exactly when its text is the three characters `---`,
and the span covers the full line (`line.from` to `line.to`). -/
def dividerSpansIn (t : List Char) : List (Nat × Nat) :=
  (withOffsets 0 (splitLines t)).filterMap fun ol =>
    if ol.2 = "---".data then some (ol.1, ol.1 + ol.2.length) else none

/-- Divider spans of a document, from its raw text. -/
def findDividerSpans (text : String) : List (Nat × Nat) :=
  dividerSpansIn text.data

/-- Modelled from the spec: the "trimmed text" of a line (leading and trailing
whitespace removed), used by the spec's divider rule "a line is a divider iff
its trimmed text equals exactly `---`". -/
def trimChars (t : List Char) : List Char :=
  ((t.dropWhile fun c => c.isWhitespace).reverse.dropWhile fun c => c.isWhitespace).reverse

/-- Continuation of a wikilink-regex match (findWikiLinks of wikiLink-plugin.ts,
regex `(?<!\\)\[\[((?:\\\]|\](?!\])|[^\]])+)\]\]`): at index `p`, with at least
one content character already consumed, try — in the engine's backtracking
order — to consume one more content character (`\]` escape first, then `]` not
followed by `]`, then any non-`]`), and otherwise to match the closing `]]`.
Returns the index one past the closing `]]` of the first full match found. -/
def wikiRest : Nat → List Char → Option Nat
  | p, '\\' :: ']' :: r => wikiRest (p + 2) r <|> wikiRest (p + 1) (']' :: r)
  | p, ']' :: ']' :: _ => some (p + 2)
  | p, ']' :: r => wikiRest (p + 1) r
  | p, _ :: r => wikiRest (p + 1) r
  | _, [] => none

/-- Attempt the wikilink regex at index `p` (suffix `s`): requires `[[`, then at
least one content character, then the rest of the pattern via `wikiRest`. -/
def wikiAttempt (p : Nat) (s : List Char) : Option Nat :=
  match s with
  | '[' :: '[' :: ']' :: ']' :: _ => none
  | '[' :: '[' :: r => wikiRest (p + 2) r
  | _ => none

/-- The per-line `regex.exec` loop of findWikiLinks (wikiLink-plugin.ts lines
67–89): left-to-right scan of one line; a match may not be preceded by a
backslash (the `(?<!\\)` lookbehind); after a match the scan resumes at its
end, after a failed attempt at the next index. -/
def wikiScanLine (line : List Char) (off : Nat) : Nat → Nat → List (Nat × Nat)
  | 0, _ => []
  | fuel + 1, p =>
    if p < line.length then
      match (if p = 0 ∨ charAt? line (p - 1) ≠ some '\\' then
               wikiAttempt p (line.drop p) else none) with
      | some e => (off + p, off + e) :: wikiScanLine line off fuel e
      | none => wikiScanLine line off fuel (p + 1)
    else []

/-- `findWikiLinks` of wikiLink-plugin.ts: scan every line of the document; a
span is the `from`/`to` document-offset pair of one `[[...]]` match (the
target/alias payload of `WikiLinkMatch` is not needed by any claim and is
omitted). -/
def findWikiLinks (text : String) : List (Nat × Nat) :=
  ((withOffsets 0 (splitLines text.data)).map fun ol =>
    wikiScanLine ol.2 ol.1 (ol.2.length + 1) 0).flatten

/-- The `MatchDecorator` regex `/\[\[([^\]]+)\]\]/g` of wikiLinkPlugin.ts
(src/src/extensions): per-line scan with no escape handling.  At `[[`, the
greedy `[^\]]+` takes the maximal run of non-`]` characters; the match
succeeds when that run is nonempty and followed by `]]` (shrinking the run
cannot help, since the freed characters are not `]`). -/
def decoratorScanLine (line : List Char) (off : Nat) : Nat → Nat → List (Nat × Nat)
  | 0, _ => []
  | fuel + 1, p =>
    if p < line.length then
      match line.drop p with
      | '[' :: '[' :: r =>
        let run := r.takeWhile fun c => c ≠ ']'
        if 1 ≤ run.length ∧ charAt? line (p + 2 + run.length) = some ']' ∧
            charAt? line (p + 3 + run.length) = some ']' then
          (off + p, off + p + 4 + run.length) ::
            decoratorScanLine line off fuel (p + 4 + run.length)
        else decoratorScanLine line off fuel (p + 1)
      | _ => decoratorScanLine line off fuel (p + 1)
    else []

/-- Decoration spans produced by the regex-based `wikiLinkDecorator` of
wikiLinkPlugin.ts. -/
def wikiLinkDecoratorSpans (text : String) : List (Nat × Nat) :=
  ((withOffsets 0 (splitLines text.data)).map fun ol =>
    decoratorScanLine ol.2 ol.1 (ol.2.length + 1) 0).flatten

/-- The cursor test of buildMathDecorations (math-plugin.ts line 100):
`selection.from >= m.start && selection.to <= m.end`. -/
def mathCursorOverlap (selFrom selTo mStart mEnd : Nat) : Bool :=
  decide (mStart ≤ selFrom) && decide (selTo ≤ mEnd)

/-- The cursor test of the divider plugin (divider-plugin.ts line 76):
`selection.from >= line.from && selection.to <= line.to`. -/
def dividerCursorOverlaps (selFrom selTo lineFrom lineTo : Nat) : Bool :=
  decide (lineFrom ≤ selFrom) && decide (selTo ≤ lineTo)

/-- The cursor test of the live-preview plugin (markdown-preview-plugin.ts
line 45): `selection.from <= parent.to && selection.to >= parent.from`. -/
def previewCursorOverlaps (selFrom selTo parentFrom parentTo : Nat) : Bool :=
  decide (selFrom ≤ parentTo) && decide (parentFrom ≤ selTo)

/-- Modelled from the spec: the overlap predicate the spec assigns to
math/divider suppression, `selection.from <= span.end && selection.to >=
span.start`. -/
def specOverlapPred (selFrom selTo spanStart spanEnd : Nat) : Bool :=
  decide (selFrom ≤ spanEnd) && decide (spanStart ≤ selTo)

/-- Modelled from the spec: the containment predicate the spec assigns to the
live-preview hide-markup behavior, `selection.from >= span.start &&
selection.to <= span.end`. -/
def specContainmentPred (selFrom selTo spanStart spanEnd : Nat) : Bool :=
  decide (spanStart ≤ selFrom) && decide (selTo ≤ spanEnd)

/-- An immutable editor snapshot: document text plus main selection range. -/
structure Snapshot where
  doc : String
  selFrom : Nat
  selTo : Nat

/-- `buildMathDecorations` of math-plugin.ts: every found math span whose
cursor test is false becomes a replace-with-widget decoration. -/
def buildMathDecorations (s : Snapshot) : List LatexMatch :=
  (findLatexExpressions s.doc).filter fun m =>
    !(mathCursorOverlap s.selFrom s.selTo m.start m.endPos)

/-- The change-event flags a plugin's `update` inspects. -/
structure UpdateEvent where
  docChanged : Bool
  viewportChanged : Bool
  selectionSet : Bool

/-- The update rule of the `mathPlugin` StateField (math-plugin.ts lines
121–126): recompute when `transaction.docChanged || transaction.selection`,
otherwise return the previous decoration set unchanged. -/
def mathPluginUpdate (old : List LatexMatch) (e : UpdateEvent) (s : Snapshot) :
    List LatexMatch :=
  if e.docChanged || e.selectionSet then buildMathDecorations s else old

/-- The update rule of `wikiLinkPlugin` (wikiLinkPlugin.ts lines 19–23):
recompute when `update.docChanged || update.viewportChanged`. -/
def wikiLinkPluginUpdate (old : List (Nat × Nat)) (e : UpdateEvent) (s : Snapshot) :
    List (Nat × Nat) :=
  if e.docChanged || e.viewportChanged then wikiLinkDecoratorSpans s.doc else old

/-- Modelled from the spec: the recompute trigger the spec assigns to the
cursor-aware math decorations — `docChanged || viewportChanged`, plus
`selectionChanged` for cursor-aware suppression. -/
def specMathRecompute (e : UpdateEvent) : Bool :=
  e.docChanged || e.viewportChanged || e.selectionSet

/-- `WikiLinkFileIndex.exists` (wikiLink-plugin.ts lines 182–185): a target
exists when the index holds it, with or without the `.md` extension.  The
index is modelled by its key set. -/
def indexExists (index : List String) (target : String) : Bool :=
  index.contains target || index.contains (target ++ ".md")

/-- The existence flag of buildDecorations (wikiLink-plugin.ts line 246):
`isIndexBuilt ? fileIndex.exists(match.target) : true`. -/
def wikiLinkExistsFlag (isIndexBuilt : Bool) (index : List String) (target : String) :
    Bool :=
  if isIndexBuilt then indexExists index target else true

/-- The CSS class the wikilink decoration carries (wikiLink-plugin.ts lines
246–254). -/
def wikiLinkClass (isIndexBuilt : Bool) (index : List String) (target : String) :
    String :=
  if wikiLinkExistsFlag isIndexBuilt index target then
    "cm-wikilink cm-wikilink-valid"
  else
    "cm-wikilink cm-wikilink-broken"

/-- Modelled from the spec: the markup-span kinds of §3 (the Span Resolver of
§4.2 has no implementation under src/, so the resolver below follows the
spec's words). -/
inductive SpanKind where
  | mathBlock
  | mathInline
  | wikilink
  | divider
  | structuralMark
deriving DecidableEq, Repr

/-- Modelled from the spec: the fixed kind-priority order of §4.2 (smaller is
higher priority): math-block > math-inline > wikilink > divider >
structural-mark. -/
def kindPriority : SpanKind → Nat
  | .mathBlock => 0
  | .mathInline => 1
  | .wikilink => 2
  | .divider => 3
  | .structuralMark => 4

/-- Modelled from the spec: a markup span (§3): half-open offsets plus kind
(the kind-specific payloads play no role in resolution). -/
structure Span where
  start : Nat
  endPos : Nat
  kind : SpanKind
deriving DecidableEq, Repr

/-- Modelled from the spec: §4.2's sort order — by `start` ascending, ties
broken by longer span first, then by the fixed kind priority. -/
def spanLE (a b : Span) : Bool :=
  if a.start ≠ b.start then decide (a.start ≤ b.start)
  else if a.endPos ≠ b.endPos then decide (b.endPos ≤ a.endPos)
  else decide (kindPriority a.kind ≤ kindPriority b.kind)

/-- Modelled from the spec: §4.2's greedy sweep — a candidate is accepted iff
`candidate.start >= lastEnd`; accepted spans update `lastEnd` to their end. -/
def sweep : Nat → List Span → List Span
  | _, [] => []
  | lastEnd, s :: rest =>
    if lastEnd ≤ s.start then s :: sweep s.endPos rest else sweep lastEnd rest

/-- Modelled from the spec: insert a span into an already sorted candidate
list, keeping the §4.2 order. -/
def insertSpan (a : Span) : List Span → List Span
  | [] => [a]
  | b :: l => if spanLE a b then a :: b :: l else b :: insertSpan a l

/-- Modelled from the spec: sort the concatenated candidates by the §4.2
order (insertion sort, chosen for its direct executability). -/
def sortSpans : List Span → List Span
  | [] => []
  | a :: l => insertSpan a (sortSpans l)

/-- Modelled from the spec: `resolve` (§4.2) — concatenate the candidate lists,
sort with the tie-breaking order, and sweep left to right. -/
def resolve (spanLists : List (List Span)) : List Span :=
  sweep 0 (sortSpans spanLists.flatten)

theorem charAt?_of_drop {t : List Char} {p : Nat} {c : Char} {r : List Char}
    (h : t.drop p = c :: r) : charAt? t p = some c := by
  have h0 : (t.drop p).get? 0 = some c := by rw [h]; rfl
  rw [List.get?_drop] at h0
  simpa [charAt?] using h0

theorem drop_succ_of_drop {t : List Char} {p : Nat} {c : Char} {r : List Char}
    (h : t.drop p = c :: r) : t.drop (p + 1) = r := by
  have h1 : (t.drop p).drop 1 = r := by rw [h]; rfl
  rwa [List.drop_drop] at h1

theorem blockScanL_spec (p : Nat) (s : List Char) :
    p ≤ (blockScanL p s).2.1 ∧
    ((blockScanL p s).1 = .closed → p + 2 ≤ (blockScanL p s).2.1) ∧
    ((blockScanL p s).1 = .failed → (blockScanL p s).2.2.length ≤ 1) ∧
    (∀ t : List Char, s = t.drop p → (blockScanL p s).2.2 = t.drop (blockScanL p s).2.1) := by
  induction p, s using blockScanL.induct with
  | case1 p c' r ih =>
    have he : blockScanL p ('\\' :: c' :: r) = blockScanL (p + 2) r := by
      simp [blockScanL]
    rw [he]
    refine ⟨by omega, fun h => by have := ih.1; omega, ih.2.2.1, fun t hs => ?_⟩
    exact ih.2.2.2 t (drop_succ_of_drop (drop_succ_of_drop hs.symm)).symm
  | case2 p c c' r hc h2 =>
    have he : blockScanL p (c :: c' :: r) = (.closed, p + 2, r) := by
      simp [blockScanL, hc, h2]
    rw [he]
    refine ⟨by simp, fun _ => by simp, by simp, fun t hs => ?_⟩
    exact (drop_succ_of_drop (drop_succ_of_drop hs.symm)).symm
  | case3 p c c' r hc h2 ih =>
    have he : blockScanL p (c :: c' :: r) = blockScanL (p + 1) (c' :: r) := by
      simp [blockScanL, hc, h2]
    rw [he]
    refine ⟨by omega, fun h => by have := ih.2.1 h; omega, ih.2.2.1, fun t hs => ?_⟩
    exact ih.2.2.2 t (drop_succ_of_drop hs.symm).symm
  | case4 p s hs =>
    cases s with
    | nil =>
      have he : blockScanL p [] = (.failed, p, []) := by rw [blockScanL.eq_def]
      rw [he]
      exact ⟨Nat.le_refl _, by simp, by simp, fun t h => h⟩
    | cons a tail =>
      cases tail with
      | nil =>
        have he : blockScanL p [a] = (.failed, p, [a]) := by rw [blockScanL.eq_def]
        rw [he]
        exact ⟨Nat.le_refl _, by simp, by simp, fun t h => h⟩
      | cons b r => exact (hs a b r rfl).elim

theorem inlineScanL_spec (p : Nat) (s : List Char) :
    p ≤ (inlineScanL p s).2.1 ∧
    ((inlineScanL p s).1 = .closed → p + 1 ≤ (inlineScanL p s).2.1) ∧
    (∀ t : List Char, s = t.drop p → (inlineScanL p s).2.2 = t.drop (inlineScanL p s).2.1) := by
  induction p, s using inlineScanL.induct with
  | case1 p =>
    have he : inlineScanL p [] = (.exhausted, p, []) := by simp [inlineScanL]
    rw [he]
    exact ⟨Nat.le_refl _, by simp, fun t h => h⟩
  | case2 p r =>
    have he : inlineScanL p ('\n' :: r) = (.newlineAbort, p, '\n' :: r) := by
      rw [inlineScanL.eq_def]; simp
    rw [he]
    exact ⟨Nat.le_refl _, by simp, fun t h => h⟩
  | case3 p h1 =>
    have he : inlineScanL p ['\\'] = (.exhausted, p + 2, []) := by
      simp [inlineScanL, h1]
    rw [he]
    refine ⟨by simp, by simp, fun t h => ?_⟩
    have h2 := congrArg (List.drop 1) (drop_succ_of_drop h.symm)
    rw [List.drop_drop] at h2
    exact h2.symm
  | case4 p head r' h1 ih =>
    have he : inlineScanL p ('\\' :: head :: r') = inlineScanL (p + 2) r' := by
      simp [inlineScanL, h1]
    rw [he]
    refine ⟨by have := ih.1; omega, fun h => by have := ih.1; omega, fun t h => ?_⟩
    exact ih.2.2 t (drop_succ_of_drop (drop_succ_of_drop h.symm)).symm
  | case5 p r h1 h2 =>
    have he : inlineScanL p ('$' :: r) = (.closed, p + 1, r) := by
      rw [inlineScanL.eq_def]; simp
    rw [he]
    exact ⟨by simp, fun _ => by simp, fun t h => (drop_succ_of_drop h.symm).symm⟩
  | case6 p c r h1 h2 h3 ih =>
    have he : inlineScanL p (c :: r) = inlineScanL (p + 1) r := by
      rw [inlineScanL.eq_def]; simp [h1, h2, h3]
    rw [he]
    refine ⟨by have := ih.1; omega, fun h => by have := ih.2.1 h; omega, fun t h => ?_⟩
    exact ih.2.2 t (drop_succ_of_drop h.symm).symm

theorem inlineScanL_closed_spec (p : Nat) (s : List Char) :
    ∀ t : List Char, s = t.drop p → (inlineScanL p s).1 = .closed →
      charAt? t ((inlineScanL p s).2.1 - 1) = some '$' ∧
      ∀ j, p ≤ j → j < (inlineScanL p s).2.1 - 1 →
        charAt? t j = some '\n' → charAt? t (j - 1) = some '\\' := by
  induction p, s using inlineScanL.induct with
  | case1 p =>
    intro t hs hc
    rw [show inlineScanL p [] = (.exhausted, p, []) from by simp [inlineScanL]] at hc
    simp at hc
  | case2 p r =>
    intro t hs hc
    rw [show inlineScanL p ('\n' :: r) = (.newlineAbort, p, '\n' :: r) from by
      rw [inlineScanL.eq_def]; simp] at hc
    simp at hc
  | case3 p h1 =>
    intro t hs hc
    rw [show inlineScanL p ['\\'] = (.exhausted, p + 2, []) from by
      simp [inlineScanL, h1]] at hc
    simp at hc
  | case4 p head r' h1 ih =>
    intro t hs hc
    have he : inlineScanL p ('\\' :: head :: r') = inlineScanL (p + 2) r' := by
      simp [inlineScanL, h1]
    rw [he] at hc ⊢
    have hsync : r' = t.drop (p + 2) :=
      (drop_succ_of_drop (drop_succ_of_drop hs.symm)).symm
    obtain ⟨hch, hinv⟩ := ih t hsync hc
    refine ⟨hch, fun j hj1 hj2 hnl => ?_⟩
    have hsplit : j = p ∨ j = p + 1 ∨ p + 2 ≤ j := by omega
    rcases hsplit with hj | hj | hj
    · have hcp := charAt?_of_drop hs.symm
      rw [hj, hcp] at hnl
      exact absurd (Option.some.inj hnl) (by decide)
    · rw [hj]
      exact charAt?_of_drop hs.symm
    · exact hinv j hj hj2 hnl
  | case5 p r h1 h2 =>
    intro t hs hc
    have he : inlineScanL p ('$' :: r) = (.closed, p + 1, r) := by
      rw [inlineScanL.eq_def]; simp
    rw [he]
    refine ⟨charAt?_of_drop hs.symm, fun j hj1 hj2 hnl => ?_⟩
    simp at hj2
    omega
  | case6 p c r h1 h2 h3 ih =>
    intro t hs hc
    have he : inlineScanL p (c :: r) = inlineScanL (p + 1) r := by
      rw [inlineScanL.eq_def]; simp [h1, h2, h3]
    rw [he] at hc ⊢
    have hsync : r = t.drop (p + 1) := (drop_succ_of_drop hs.symm).symm
    obtain ⟨hch, hinv⟩ := ih t hsync hc
    refine ⟨hch, fun j hj1 hj2 hnl => ?_⟩
    have hsplit : j = p ∨ p + 1 ≤ j := by omega
    rcases hsplit with hj | hj
    · have hcp := charAt?_of_drop hs.symm
      rw [hj, hcp] at hnl
      exact absurd (Option.some.inj hnl) h1
    · exact hinv j hj hj2 hnl

theorem scanStep_spec (t : List Char) (pos : Nat) (c : Char) (rest : List Char) :
    pos < (scanStep t pos c rest).2.1 ∧
    (∀ m, (scanStep t pos c rest).1 = some m →
      m.start = pos ∧ m.endPos = (scanStep t pos c rest).2.1) ∧
    (t.drop pos = c :: rest → (scanStep t pos c rest).2.2 = t.drop (scanStep t pos c rest).2.1) := by
  unfold scanStep
  split
  case isTrue hcond =>
    have hsub : ∀ hd : t.drop pos = c :: rest, rest.tail = t.drop (pos + 2) := by
      intro hd
      obtain ⟨hc, hh⟩ := hcond
      cases rest with
      | nil => simp at hh
      | cons r0 rest2 =>
        have hr0 : r0 = '$' := by simpa using hh
        have h1 : t.drop (pos + 1) = r0 :: rest2 := drop_succ_of_drop hd
        simpa using (drop_succ_of_drop h1).symm
    split
    case h_1 e rest' heq =>
      have hs := blockScanL_spec (pos + 2) rest.tail
      rw [heq] at hs
      refine ⟨by have h1 := hs.1; simp at h1 ⊢; omega, ?_, ?_⟩
      · intro m hm
        simp at hm
        simp [← hm]
      · intro hd
        have := hs.2.2.2 t (hsub hd)
        simpa using this
    case h_2 x rest' heq =>
      have hs := blockScanL_spec (pos + 2) rest.tail
      rw [heq] at hs
      refine ⟨by have h1 := hs.1; simp at h1 ⊢; omega, by simp, ?_⟩
      intro hd
      have := hs.2.2.2 t (hsub hd)
      simpa using this
  case isFalse hcond =>
    split
    case isTrue hc =>
      split
      case h_1 e rest' heq =>
        have hs := inlineScanL_spec (pos + 1) rest
        rw [heq] at hs
        refine ⟨by have h1 := hs.1; simp at h1 ⊢; omega, ?_, ?_⟩
        · intro m hm
          simp at hm
          simp [← hm]
        · intro hd
          have := hs.2.2 t (drop_succ_of_drop hd).symm
          simpa using this
      case h_2 x y heq =>
        refine ⟨by simp, by simp, ?_⟩
        intro hd
        simpa using (drop_succ_of_drop hd).symm
      case h_3 x rest' heq =>
        have hs := inlineScanL_spec (pos + 1) rest
        rw [heq] at hs
        refine ⟨by have h1 := hs.1; simp at h1 ⊢; omega, by simp, ?_⟩
        intro hd
        have := hs.2.2 t (drop_succ_of_drop hd).symm
        simpa using this
    case isFalse hc =>
      refine ⟨by simp, by simp, ?_⟩
      intro hd
      simpa using (drop_succ_of_drop hd).symm

theorem scanStep_inline (t : List Char) (pos : Nat) (c : Char) (rest : List Char)
    (m : LatexMatch) (hm : (scanStep t pos c rest).1 = some m)
    (hb : m.isBlock = false) :
    inlineScanL (pos + 1) rest = (.closed, m.endPos, (scanStep t pos c rest).2.2) := by
  unfold scanStep at hm ⊢
  split at hm
  case isTrue hcond =>
    split at hm
    case h_1 e rest' heq =>
      simp at hm
      rw [← hm] at hb
      simp at hb
    case h_2 x rest' heq => simp at hm
  case isFalse hcond =>
    split at hm
    case isTrue hc =>
      split at hm
      case h_1 e rest' heq =>
        simp at hm
        rw [if_neg hcond, if_pos hc, heq]
        simp [← hm]
      case h_2 x y heq => simp at hm
      case h_3 x rest' heq => simp at hm
    case isFalse hc => simp at hm

theorem scanF_nil (t : List Char) (fuel pos : Nat) : scanF t fuel pos [] = [] := by
  cases fuel <;> rfl

theorem scanF_cons_eq (t : List Char) (f pos : Nat) (c : Char) (rest : List Char) :
    scanF t (f + 1) pos (c :: rest) =
      match scanStep t pos c rest with
      | (some m, pos', s') => m :: scanF t f pos' s'
      | (none, pos', s') => scanF t f pos' s' := rfl

theorem scanStep_nil_rest (t : List Char) (pos : Nat) (c : Char) :
    scanStep t pos c [] = (none, pos + 1, []) := by
  unfold scanStep
  split
  case isTrue hcond => simp at hcond
  case isFalse hcond =>
    split
    case isTrue hc =>
      have he : inlineScanL (pos + 1) ([] : List Char) = (.exhausted, pos + 1, []) := by
        simp [inlineScanL]
      rw [he]
    case isFalse hc => rfl

theorem scanF_short (t : List Char) (fuel pos : Nat) (s : List Char)
    (h : s.length ≤ 1) : scanF t fuel pos s = [] := by
  cases fuel with
  | zero => rfl
  | succ f =>
    cases s with
    | nil => rfl
    | cons c rest =>
      cases rest with
      | nil => rw [scanF_cons_eq, scanStep_nil_rest]; exact scanF_nil t f (pos + 1)
      | cons d r2 => simp at h

theorem scanF_cons_some (t : List Char) (f pos : Nat) (c : Char) (rest : List Char)
    (m0 : LatexMatch) (pos' : Nat) (s' : List Char)
    (h : scanStep t pos c rest = (some m0, pos', s')) :
    scanF t (f + 1) pos (c :: rest) = m0 :: scanF t f pos' s' := by
  rw [scanF_cons_eq, h]

theorem scanF_cons_none (t : List Char) (f pos : Nat) (c : Char) (rest : List Char)
    (pos' : Nat) (s' : List Char)
    (h : scanStep t pos c rest = (none, pos', s')) :
    scanF t (f + 1) pos (c :: rest) = scanF t f pos' s' := by
  rw [scanF_cons_eq, h]

theorem scanF_inv (t : List Char) (fuel : Nat) : ∀ pos : Nat,
    (∀ m ∈ scanF t fuel pos (t.drop pos), pos ≤ m.start ∧ m.start < m.endPos) ∧
    (scanF t fuel pos (t.drop pos)).Pairwise (fun a b => a.endPos ≤ b.start) := by
  induction fuel with
  | zero => intro pos; constructor <;> simp [scanF]
  | succ f ih =>
    intro pos
    cases hdrop : t.drop pos with
    | nil => rw [scanF_nil]; constructor <;> simp
    | cons c rest =>
      cases hstep : scanStep t pos c rest with
      | mk em pr =>
        obtain ⟨pos', s'⟩ := pr
        obtain ⟨hprog, hfields, hsync⟩ := scanStep_spec t pos c rest
        rw [hstep] at hprog hfields hsync
        have hprog' : pos < pos' := by simpa using hprog
        have hsync' : s' = t.drop pos' := by simpa using hsync hdrop
        cases em with
        | none =>
          rw [scanF_cons_none t f pos c rest pos' s' hstep, hsync']
          obtain ⟨ihm, ihp⟩ := ih pos'
          exact ⟨fun m hm => ⟨Nat.le_trans (Nat.le_of_lt hprog') (ihm m hm).1,
            (ihm m hm).2⟩, ihp⟩
        | some m0 =>
          rw [scanF_cons_some t f pos c rest m0 pos' s' hstep, hsync']
          obtain ⟨ihm, ihp⟩ := ih pos'
          have hf := hfields m0 rfl
          have hst : m0.start = pos := hf.1
          have hen : m0.endPos = pos' := by simpa using hf.2
          constructor
          · intro m hm
            rcases List.mem_cons.mp hm with hmeq | hmem
            · subst hmeq
              exact ⟨Nat.le_of_eq hst.symm, by rw [hst, hen]; exact hprog'⟩
            · exact ⟨Nat.le_trans (Nat.le_of_lt hprog') (ihm m hmem).1, (ihm m hmem).2⟩
          · rw [List.pairwise_cons]
            exact ⟨fun b hb => by rw [hen]; exact (ihm b hb).1, ihp⟩

theorem scanF_stable (t : List Char) (fuel : Nat) : ∀ (fuel' pos : Nat),
    t.length < pos + fuel → t.length < pos + fuel' →
    scanF t fuel pos (t.drop pos) = scanF t fuel' pos (t.drop pos) := by
  induction fuel with
  | zero =>
    intro fuel' pos h h'
    have hnil : t.drop pos = [] := List.drop_eq_nil_of_le (by omega)
    rw [hnil, scanF_nil, scanF_nil]
  | succ f ih =>
    intro fuel' pos h h'
    cases fuel' with
    | zero =>
      have hnil : t.drop pos = [] := List.drop_eq_nil_of_le (by omega)
      rw [hnil, scanF_nil, scanF_nil]
    | succ g =>
      cases hdrop : t.drop pos with
      | nil => rw [scanF_nil, scanF_nil]
      | cons c rest =>
        cases hstep : scanStep t pos c rest with
        | mk em pr =>
          obtain ⟨pos', s'⟩ := pr
          obtain ⟨hprog, -, hsync⟩ := scanStep_spec t pos c rest
          rw [hstep] at hprog hsync
          have hprog' : pos < pos' := by simpa using hprog
          have hsync' : s' = t.drop pos' := by simpa using hsync hdrop
          cases em with
          | none =>
            rw [scanF_cons_none t f pos c rest pos' s' hstep,
              scanF_cons_none t g pos c rest pos' s' hstep, hsync']
            exact ih g pos' (by omega) (by omega)
          | some m0 =>
            rw [scanF_cons_some t f pos c rest m0 pos' s' hstep,
              scanF_cons_some t g pos c rest m0 pos' s' hstep, hsync']
            exact congrArg (m0 :: ·) (ih g pos' (by omega) (by omega))

theorem scanF_inline_nl (t : List Char) (fuel : Nat) : ∀ pos : Nat,
    ∀ m ∈ scanF t fuel pos (t.drop pos), m.isBlock = false →
    ∀ j, m.start < j → j < m.endPos → charAt? t j = some '\n' →
    charAt? t (j - 1) = some '\\' := by
  induction fuel with
  | zero => intro pos m hm; simp [scanF] at hm
  | succ f ih =>
    intro pos m hm hb j hj1 hj2 hnl
    cases hdrop : t.drop pos with
    | nil => rw [hdrop, scanF_nil] at hm; simp at hm
    | cons c rest =>
      rw [hdrop] at hm
      cases hstep : scanStep t pos c rest with
      | mk em pr =>
        obtain ⟨pos', s'⟩ := pr
        obtain ⟨hprog, hfields, hsync⟩ := scanStep_spec t pos c rest
        rw [hstep] at hprog hfields hsync
        have hsync' : s' = t.drop pos' := by simpa using hsync hdrop
        cases em with
        | none =>
          rw [scanF_cons_none t f pos c rest pos' s' hstep, hsync'] at hm
          exact ih pos' m hm hb j hj1 hj2 hnl
        | some m0 =>
          rw [scanF_cons_some t f pos c rest m0 pos' s' hstep, hsync'] at hm
          rcases List.mem_cons.mp hm with hmeq | hmem
          · subst hmeq
            have hin := scanStep_inline t pos c rest m (by rw [hstep]) hb
            rw [hstep] at hin
            have hin' : inlineScanL (pos + 1) rest = (.closed, m.endPos, s') := by
              simpa using hin
            have hrest : rest = t.drop (pos + 1) := (drop_succ_of_drop hdrop).symm
            rw [hrest] at hin'
            have hcs := inlineScanL_closed_spec (pos + 1) (t.drop (pos + 1)) t rfl
              (by rw [hin'])
            rw [hin'] at hcs
            have hch : charAt? t (m.endPos - 1) = some '$' := by simpa using hcs.1
            have hinv := hcs.2
            have hf := hfields m rfl
            have hst : m.start = pos := hf.1
            have hj3 : j = m.endPos - 1 ∨ j < m.endPos - 1 := by omega
            rcases hj3 with hj | hj
            · rw [hj] at hnl
              have hcontra := hch.symm.trans hnl
              exact absurd (Option.some.inj hcontra) (by decide)
            · refine hinv j (by omega) (by simpa using hj) hnl
          · exact ih pos' m hmem hb j hj1 hj2 hnl

theorem splitLinesAux_no_newline (l : List Char) : ∀ acc : List Char,
    (∀ c ∈ l, c ≠ '\n') → splitLinesAux acc l = [acc.reverse ++ l] := by
  induction l with
  | nil => intro acc h; simp [splitLinesAux]
  | cons c r ih =>
    intro acc h
    have hc : c ≠ '\n' := h c (by simp)
    rw [splitLinesAux.eq_def]
    simp only [if_neg hc]
    rw [ih (c :: acc) (fun d hd => h d (by simp [hd]))]
    simp

theorem dividerSpansIn_single (l : List Char) (h : ∀ c ∈ l, c ≠ '\n') :
    dividerSpansIn l = if l = "---".data then [(0, 3)] else [] := by
  have hs : splitLines l = [l] := by
    unfold splitLines
    rw [splitLinesAux_no_newline l [] h]
    simp
  unfold dividerSpansIn
  rw [hs]
  by_cases hl : l = "---".data
  · subst hl; decide
  · rw [if_neg hl]
    simp [withOffsets, List.filterMap_cons, hl]

theorem mem_insertSpan (a x : Span) : ∀ l : List Span,
    x ∈ insertSpan a l ↔ x = a ∨ x ∈ l := by
  intro l
  induction l with
  | nil => simp [insertSpan]
  | cons b m ih =>
    rw [insertSpan.eq_def]
    by_cases h : spanLE a b
    · simp only [if_pos h]
      simp [List.mem_cons]
    · simp only [if_neg h]
      simp [List.mem_cons, ih]
      tauto

theorem mem_sortSpans (x : Span) : ∀ l : List Span, x ∈ sortSpans l ↔ x ∈ l := by
  intro l
  induction l with
  | nil => simp [sortSpans]
  | cons a m ih =>
    rw [sortSpans, mem_insertSpan]
    simp [ih]

theorem sweep_inv : ∀ (l : List Span) (lastEnd : Nat),
    (∀ s ∈ l, s.start < s.endPos) →
    (∀ m ∈ sweep lastEnd l, lastEnd ≤ m.start ∧ m.start < m.endPos) ∧
    (sweep lastEnd l).Pairwise (fun a b => a.endPos ≤ b.start) := by
  intro l
  induction l with
  | nil => intro lastEnd _; simp [sweep]
  | cons s rest ih =>
    intro lastEnd h
    have hs : s.start < s.endPos := h s (by simp)
    have hrest : ∀ x ∈ rest, x.start < x.endPos := fun x hx => h x (by simp [hx])
    rw [sweep]
    by_cases hacc : lastEnd ≤ s.start
    · rw [if_pos hacc]
      obtain ⟨ihm, ihp⟩ := ih s.endPos hrest
      constructor
      · intro m hm
        rcases List.mem_cons.mp hm with hmeq | hmem
        · subst hmeq; exact ⟨hacc, hs⟩
        · have hmm := ihm m hmem
          exact ⟨by omega, hmm.2⟩
      · rw [List.pairwise_cons]
        exact ⟨fun b hb => (ihm b hb).1, ihp⟩
    · rw [if_neg hacc]
      exact ih lastEnd hrest

/-- C1: on input `$$a $b$ c$$`, `findLatexExpressions` emits exactly one span,
of block kind, covering the whole `$$...$$` range (start 0, end 11), and no
inline span for the inner `$b$`: block math is resolved first by the single
left-to-right scan itself. -/
theorem c1_math_block_precedence :
    findLatexExpressions "$$a $b$ c$$" =
      [{ start := 0, endPos := 11, formula := "a $b$ c".data, isBlock := true }] := by
  decide

/-- C2 counterexample: at span `[10,20]` and selection `[5,15]` the spec's
overlap predicate holds while the math and divider cursor tests of the code
are false, and the spec's containment predicate is false while the
live-preview cursor test of the code is true — the claim assigns each kind
the opposite predicate from the one the code uses. -/
theorem c2_predicates_swapped_counterexample :
    specOverlapPred 5 15 10 20 = true ∧ mathCursorOverlap 5 15 10 20 = false ∧
    dividerCursorOverlaps 5 15 10 20 = false ∧
    specContainmentPred 5 15 10 20 = false ∧
    previewCursorOverlaps 5 15 10 20 = true := by
  decide

/-- C2 (amended): the math and divider plugins suppress their widgets by the
containment predicate (`selection.from >= start && selection.to <= end`),
while the live-preview hide-markup plugin uses the overlap predicate
(`selection.from <= parent.to && selection.to >= parent.from`) — the reverse
of the spec's assignment; buildMathDecorations keeps exactly the spans whose
containment test is false. -/
theorem c2_suppression_predicates :
    ∀ selFrom selTo spanStart spanEnd : Nat,
      mathCursorOverlap selFrom selTo spanStart spanEnd =
        specContainmentPred selFrom selTo spanStart spanEnd ∧
      dividerCursorOverlaps selFrom selTo spanStart spanEnd =
        specContainmentPred selFrom selTo spanStart spanEnd ∧
      previewCursorOverlaps selFrom selTo spanStart spanEnd =
        specOverlapPred selFrom selTo spanStart spanEnd ∧
      (∀ snap : Snapshot,
        buildMathDecorations snap = (findLatexExpressions snap.doc).filter fun m =>
          !(specContainmentPred snap.selFrom snap.selTo m.start m.endPos)) :=
  fun _ _ _ _ => ⟨rfl, rfl, rfl, fun _ => rfl⟩

/-- C3 counterexample: before the index is built the decoration carries the
valid-link class, not the broken-link class, even though the index lookup
itself would report the target as absent. -/
theorem c3_index_not_built_counterexample :
    wikiLinkClass false [] "My Note" = "cm-wikilink cm-wikilink-valid" ∧
    indexExists [] "My Note" = false ∧
    "cm-wikilink cm-wikilink-valid" ≠ "cm-wikilink cm-wikilink-broken" := by
  decide

/-- C3 (amended): while the Note Index is not yet built, existence is assumed
TRUE and every wikilink gets the valid-link styling; once built, the
broken-link styling appears exactly when the index lookup fails. -/
theorem c3_index_not_built_assumes_valid :
    ∀ (index : List String) (target : String),
      wikiLinkClass false index target = "cm-wikilink cm-wikilink-valid" ∧
      (wikiLinkClass true index target = "cm-wikilink cm-wikilink-broken" ↔
        indexExists index target = false) := by
  intro index target
  refine ⟨rfl, ?_⟩
  unfold wikiLinkClass wikiLinkExistsFlag
  cases h : indexExists index target with
  | false => simp [h]
  | true => simp [h]

/-- C4 counterexample: on `$$ $x$` the opening `$$` has no closing `$$`; the
scanner emits nothing at all, although restarting the scan immediately after
the opening `$$` (index 2) would find the inline span `$x$` at `[3,6)` — the
claim's promised resumption point and recovered inline span do not match the
code. -/
theorem c4_resume_after_open_counterexample :
    findLatexExpressions "$$ $x$" = [] ∧
    scanF "$$ $x$".data 7 2 (" $x$".data) =
      [{ start := 3, endPos := 6, formula := ['x'], isBlock := false }] := by
  decide

/-- C4 (amended): when an opening `$$` has no matching closing `$$`, the
scanner emits no span for it and the inner search leaves at most one
character of the document unread, so no further span — in particular no later
inline candidate — is ever emitted; the scan still terminates. -/
theorem c4_unmatched_block_skips_rest :
    ∀ (t : List Char) (fuel pos : Nat) (rest rest' : List Char) (x : Nat),
      blockScanL (pos + 2) rest = (.failed, x, rest') →
      scanF t (fuel + 1) pos ('$' :: '$' :: rest) = [] := by
  intro t fuel pos rest rest' x hfail
  have hstep : scanStep t pos '$' ('$' :: rest) = (none, x, rest') := by
    unfold scanStep
    rw [if_pos ⟨rfl, rfl⟩]
    simp only [List.tail_cons]
    rw [hfail]
  rw [scanF_cons_none t fuel pos '$' ('$' :: rest) x rest' hstep]
  have hlen : rest'.length ≤ 1 := by
    have hsp := (blockScanL_spec (pos + 2) rest).2.2.1
    rw [hfail] at hsp
    simpa using hsp
  exact scanF_short t fuel x rest' hlen

theorem c4_unmatched_block_skips_rest_witness :
    blockScanL 2 (" $x$".data) = (.failed, 5, "$".data) ∧
    scanF "$$ $x$".data 7 0 ('$' :: '$' :: " $x$".data) = [] :=
  ⟨by decide,
   c4_unmatched_block_skips_rest "$$ $x$".data 6 0 " $x$".data "$".data 5 (by decide)⟩

/-- C5 counterexample: the lines `--- ` and ` ---` trim to exactly `---`, yet
neither produces a divider span — the "iff its trimmed text equals `---`"
direction of the claim fails on the code, which compares the untrimmed line
text. -/
theorem c5_trimmed_iff_counterexample :
    trimChars "--- ".data = "---".data ∧ findDividerSpans "--- " = [] ∧
    trimChars " ---".data = "---".data ∧ findDividerSpans " ---" = [] := by
  decide

/-- C5 (amended): a line produces a divider span iff its exact (untrimmed)
text equals `---`; `--- `, ` ---` and `----` produce no span, while `---`
produces one covering the full line. -/
theorem c5_divider_exact_match :
    (∀ l : List Char, (∀ c ∈ l, c ≠ '\n') →
      dividerSpansIn l = if l = "---".data then [(0, 3)] else []) ∧
    findDividerSpans "--- " = [] ∧ findDividerSpans "----" = [] ∧
    findDividerSpans " ---" = [] ∧ findDividerSpans "---" = [(0, 3)] ∧
    findDividerSpans "a\n---\nb" = [(2, 5)] :=
  ⟨fun l h => dividerSpansIn_single l h, by decide, by decide, by decide,
   by decide, by decide⟩

theorem c5_divider_exact_match_witness : dividerSpansIn "----".data = [] := by
  have h := c5_divider_exact_match.1 "----".data (by decide)
  rw [if_neg (by decide)] at h
  exact h

/-- C6 counterexample: the regex-based `wikiLinkDecorator` of
wikiLinkPlugin.ts has no escape handling, so the input `\[[Not a link]]`
yields one wikilink span `[1,15)` rather than zero. -/
theorem c6_decorator_matches_escaped_counterexample :
    wikiLinkDecoratorSpans "\\[[Not a link]]" ≠ [] ∧
    wikiLinkDecoratorSpans "\\[[Not a link]]" = [(1, 15)] := by
  decide

/-- C6 (amended): the lookbehind-based `findWikiLinks` yields zero spans on
`\[[Not a link]]` and `findLatexExpressions` yields zero math spans on
`\$not math\$`, but the regex-based `wikiLinkDecorator` produces a span on
the escaped wikilink input. -/
theorem c6_escape_handling :
    findWikiLinks "\\[[Not a link]]" = [] ∧
    findLatexExpressions "\\$not math\\$" = [] ∧
    wikiLinkDecoratorSpans "\\[[Not a link]]" = [(1, 15)] := by
  decide

/-- C7 counterexample: on `$a\` + newline + `b$` the scanner emits an inline
span `[0,6)` whose closing `$` is on a different line than the opener (index
3 in between is a newline) — inline math can cross a line boundary when the
newline is consumed by a backslash escape. -/
theorem c7_inline_crosses_line_counterexample :
    findLatexExpressions "$a\\\nb$" =
      [{ start := 0, endPos := 6, formula := "a\\\nb".data, isBlock := false }] ∧
    charAt? "$a\\\nb$".data 3 = some '\n' := by
  decide

/-- C7 (amended): a newline can occur strictly inside an emitted inline span
only as the escaped character of a backslash pair (the character before it is
`\`); an unescaped newline aborts the attempt with no span, and
`"$abc\ndef$"` yields zero math spans. -/
theorem c7_inline_newline_only_escaped :
    (∀ (text : String) (m : LatexMatch), m ∈ findLatexExpressions text →
      m.isBlock = false → ∀ j, m.start < j → j < m.endPos →
      charAt? text.data j = some '\n' → charAt? text.data (j - 1) = some '\\') ∧
    findLatexExpressions "$abc\ndef$" = [] := by
  constructor
  · intro text m hm hb j hj1 hj2 hnl
    have hm' : m ∈ scanF text.data (text.data.length + 1) 0 (text.data.drop 0) := hm
    exact scanF_inline_nl text.data (text.data.length + 1) 0 m hm' hb j hj1 hj2 hnl
  · decide

theorem c7_inline_newline_only_escaped_witness :
    charAt? "$a\\\nb$".data 2 = some '\\' :=
  c7_inline_newline_only_escaped.1 "$a\\\nb$"
    { start := 0, endPos := 6, formula := "a\\\nb".data, isBlock := false }
    (by decide) rfl 3 (by decide) (by decide) (by decide)

/-- C8: every span list produced by `findLatexExpressions` has `start < end`,
is strictly ascending by `start` and contains no two overlapping spans, and
the resolver's output satisfies the same invariant whenever its candidate
spans are well formed. -/
theorem c8_span_invariants :
    (∀ text : String,
      (∀ m ∈ findLatexExpressions text, m.start < m.endPos) ∧
      (findLatexExpressions text).Pairwise
        (fun a b => a.endPos ≤ b.start ∨ b.endPos ≤ a.start) ∧
      (findLatexExpressions text).Pairwise (fun a b => a.start < b.start)) ∧
    (∀ spanLists : List (List Span),
      (∀ s ∈ spanLists.flatten, s.start < s.endPos) →
      (∀ s ∈ resolve spanLists, s.start < s.endPos) ∧
      (resolve spanLists).Pairwise
        (fun a b => a.endPos ≤ b.start ∨ b.endPos ≤ a.start) ∧
      (resolve spanLists).Pairwise (fun a b => a.start < b.start)) := by
  constructor
  · intro text
    obtain ⟨hmem, hpair⟩ := scanF_inv text.data (text.data.length + 1) 0
    have heq : findLatexExpressions text =
        scanF text.data (text.data.length + 1) 0 (text.data.drop 0) := rfl
    rw [heq]
    refine ⟨fun m hm => (hmem m hm).2, hpair.imp (fun h => Or.inl h), ?_⟩
    refine hpair.imp_of_mem ?_
    intro a b ha hb hab
    have h2 := (hmem a ha).2
    omega
  · intro spanLists hwf
    have hwfs : ∀ s ∈ sortSpans spanLists.flatten, s.start < s.endPos :=
      fun s hs => hwf s ((mem_sortSpans s spanLists.flatten).mp hs)
    obtain ⟨hmem, hpair⟩ := sweep_inv (sortSpans spanLists.flatten) 0 hwfs
    unfold resolve
    refine ⟨fun s hs => (hmem s hs).2, hpair.imp (fun h => Or.inl h), ?_⟩
    refine hpair.imp_of_mem ?_
    intro a b ha hb hab
    have h2 := (hmem a ha).2
    omega

theorem c8_span_invariants_witness :
    (resolve [[⟨0, 4, .mathBlock⟩, ⟨2, 6, .wikilink⟩], [⟨4, 7, .divider⟩]]).Pairwise
      (fun a b => a.endPos ≤ b.start ∨ b.endPos ≤ a.start) :=
  (c8_span_invariants.2 [[⟨0, 4, .mathBlock⟩, ⟨2, 6, .wikilink⟩], [⟨4, 7, .divider⟩]]
    (by decide)).2.1

/-- C9 counterexample: on a viewport-only change event the spec's recompute
trigger for the cursor-aware math decorations fires, but the mathPlugin
StateField (whose condition is `docChanged || selection`) returns the
previous decoration set unchanged even though a fresh computation would
differ. -/
theorem c9_viewport_only_event_counterexample :
    specMathRecompute ⟨false, true, false⟩ = true ∧
    mathPluginUpdate [] ⟨false, true, false⟩ ⟨"$x$", 9, 9⟩ = [] ∧
    buildMathDecorations ⟨"$x$", 9, 9⟩ =
      [{ start := 0, endPos := 3, formula := ['x'], isBlock := false }] := by
  decide

/-- C9 (amended): each plugin update either returns the previous decoration
set unchanged or a freshly computed one; the math StateField recomputes
exactly when `docChanged || selection` (no viewport trigger), and the
regex wikilink plugin exactly when `docChanged || viewportChanged`. -/
theorem c9_update_policies :
    ∀ (old : List LatexMatch) (old2 : List (Nat × Nat)) (e : UpdateEvent)
      (s : Snapshot),
      (mathPluginUpdate old e s = old ∨
        mathPluginUpdate old e s = buildMathDecorations s) ∧
      ((e.docChanged || e.selectionSet) = true →
        mathPluginUpdate old e s = buildMathDecorations s) ∧
      ((e.docChanged || e.selectionSet) = false → mathPluginUpdate old e s = old) ∧
      (wikiLinkPluginUpdate old2 e s = old2 ∨
        wikiLinkPluginUpdate old2 e s = wikiLinkDecoratorSpans s.doc) ∧
      ((e.docChanged || e.viewportChanged) = true →
        wikiLinkPluginUpdate old2 e s = wikiLinkDecoratorSpans s.doc) ∧
      ((e.docChanged || e.viewportChanged) = false →
        wikiLinkPluginUpdate old2 e s = old2) := by
  intro old old2 e s
  unfold mathPluginUpdate wikiLinkPluginUpdate
  refine ⟨?_, fun h => by simp [h], fun h => by simp [h],
    ?_, fun h => by simp [h], fun h => by simp [h]⟩
  · cases h : (e.docChanged || e.selectionSet) <;> simp [h]
  · cases h : (e.docChanged || e.viewportChanged) <;> simp [h]

theorem c9_update_policies_witness :
    mathPluginUpdate [] ⟨true, false, false⟩ ⟨"$x$", 9, 9⟩ =
      buildMathDecorations ⟨"$x$", 9, 9⟩ :=
  (c9_update_policies [] [] ⟨true, false, false⟩ ⟨"$x$", 9, 9⟩).2.1 (by decide)

/-- C10: `findLatexExpressions` terminates on every input: each outer-loop
iteration strictly increases the scan index (over every path — matched or
unmatched block search, inline close, newline abort, exhaustion, plain
advance), and once the fuel exceeds the remaining length the result no longer
depends on it, so the `text.length + 1` budget always completes the scan. -/
theorem c10_scan_terminates :
    (∀ (t : List Char) (pos : Nat) (c : Char) (rest : List Char),
      pos < (scanStep t pos c rest).2.1) ∧
    (∀ (t : List Char) (fuel fuel' pos : Nat),
      t.length < pos + fuel → t.length < pos + fuel' →
      scanF t fuel pos (t.drop pos) = scanF t fuel' pos (t.drop pos)) :=
  ⟨fun t pos c rest => (scanStep_spec t pos c rest).1,
   fun t fuel fuel' pos h h' => scanF_stable t fuel fuel' pos h h'⟩

theorem c10_scan_terminates_witness :
    scanF "$x$".data 4 0 ("$x$".data.drop 0) =
      scanF "$x$".data 9 0 ("$x$".data.drop 0) :=
  c10_scan_terminates.2 "$x$".data 4 9 0 (by decide) (by decide)
